import Mathlib

/-!
Verification of the crabdb key-value database against its specification.

The development shallowly embeds the Rust sources:
  * `src/object/src/lib.rs` (`Key::new`) and `src/object/src/types/*.rs`
    (per-type payload validators, list/map iterators and builders, the
    `From<Link> for Object` conversion);
  * `src/engine/src/link_resolver.rs` (`LinkResolver`);
  * `src/storage/src/append_only_log.rs` (framing, `Log::from_bytes`,
    `recover_from_file_index`, the `Store` impl of `AppendOnlyLogStore`);
  * `src/storage/src/lib.rs` (`InMemoryStore`) and
    `src/concurrent-map/src/lib.rs` (`ConcurrentMap`);
  * `src/server/src/lib.rs` (`Connection::recieve`, `Command::new`,
    `GetParams::from_bytes`).

Bytes are modelled as natural numbers (each < 256 where produced by the
encoders); all multi-byte integers are big-endian as in the sources.
The struct `Object { kind, data }` itself is declared in a crate module that
is not part of the snapshot (only its callers in `types/*.rs` are), so the
tagged-pair representation and its serialize/deserialize dispatcher are
modelled from the specification (spec sections 3 and 4.1) and from how
`types/*.rs` uses them; each such definition is marked `Modelled from the
spec:` in its doc comment.
-/

namespace Crab

/-- Byte strings: each entry is one byte value. -/
abbrev Bytes := List Nat

/-- Big-endian value of a byte list, as computed by
`u16::from_be_bytes` / `u64::from_be_bytes` on a fixed-width slice. -/
def beVal (l : Bytes) : Nat := l.foldl (fun a b => a * 256 + b) 0

/-- The two big-endian bytes of a `u16` (`u16::to_be_bytes`). -/
def enc2 (n : Nat) : Bytes := [n / 256 % 256, n % 256]

theorem enc2_length (n : Nat) : (enc2 n).length = 2 := rfl

theorem beVal_enc2 (n : Nat) (h : n < 65536) : beVal (enc2 n) = n := by
  simp only [beVal, enc2, List.foldl]
  omega

/-- `ObjectKind` of the object crate: the closed type universe
(spec section 3; `types/type_ids.rs` lists the numeric tags).
Modelled from the spec: the enum itself lives in the missing crate root. -/
inductive ObjKind where
  | null
  | int
  | text
  | list
  | map
  | link
  deriving DecidableEq, Repr

/-- The one-byte type tag of each kind: Null=0, Int=1, Text=2, List=3,
Map=4, Link=5 (spec section 3 and `types.rs::type_ids`). -/
def tagOfKind : ObjKind → Nat
  | .null => 0
  | .int => 1
  | .text => 2
  | .list => 3
  | .map => 4
  | .link => 5

/-- Tag byte back to kind; unknown tags are an error (`None`). -/
def kindOfTag : Nat → Option ObjKind
  | 0 => some .null
  | 1 => some .int
  | 2 => some .text
  | 3 => some .list
  | 4 => some .map
  | 5 => some .link
  | _ => none

/-- Modelled from the spec: `Object` is a `(TypeTag, payload_bytes)` pair
(spec section 3); the struct with fields `kind` and `data` is referenced
throughout `types/*.rs` but declared in the missing crate root. -/
structure Obj where
  kind : ObjKind
  data : Bytes
  deriving DecidableEq, Repr

/-- Modelled from the spec: `Object::serialize` writes the tag byte then the
payload bytes (spec section 4.1 `encode_object`). -/
def serializeObj (o : Obj) : Bytes := tagOfKind o.kind :: o.data

/-- The canonical Null object (`From<Null> for Object` in `types/null.rs`:
kind Null, empty payload). -/
def nullObj : Obj := ⟨.null, []⟩

/-- UTF-8 acceptance, as decided by `std::str::from_utf8`
(RFC 3629 well-formed byte sequences). -/
def utf8Cont (c : Nat) : Bool := decide (0x80 ≤ c ∧ c ≤ 0xBF)

/-- UTF-8 validity of a byte list (`std::str::from_utf8(..).is_ok()`). -/
def utf8Valid : Bytes → Bool
  | [] => true
  | b :: rest =>
    if b < 0x80 then utf8Valid rest
    else if b < 0xC2 then false
    else if b ≤ 0xDF then
      match rest with
      | c1 :: r => utf8Cont c1 && utf8Valid r
      | _ => false
    else if b ≤ 0xEF then
      match rest with
      | c1 :: c2 :: r =>
        (if b = 0xE0 then decide (0xA0 ≤ c1 ∧ c1 ≤ 0xBF)
         else if b = 0xED then decide (0x80 ≤ c1 ∧ c1 ≤ 0x9F)
         else utf8Cont c1) && utf8Cont c2 && utf8Valid r
      | _ => false
    else if b ≤ 0xF4 then
      match rest with
      | c1 :: c2 :: c3 :: r =>
        (if b = 0xF0 then decide (0x90 ≤ c1 ∧ c1 ≤ 0xBF)
         else if b = 0xF4 then decide (0x80 ≤ c1 ∧ c1 ≤ 0x8F)
         else utf8Cont c1) && utf8Cont c2 && utf8Cont c3 && utf8Valid r
      | _ => false
    else false

/-- `Key::new` in `src/object/src/lib.rs`: reads a 2-byte big-endian
length, then that many key bytes.  Outcomes:
  * fewer than 2 bytes: `Err(ObjectError)`;
  * length 0: `Err(ObjectError)` ("Key len cannot be 0");
  * length n > 0 but fewer than n bytes after the prefix: the slice
    expression `&bytes[KEY_LEN_NUM_BYTES..key_len + KEY_LEN_NUM_BYTES]`
    indexes out of range and the function panics (modelled as `.panicked`);
  * otherwise `Ok((key, rest))`. -/
inductive KeyRes where
  | ok (key : Bytes) (rest : Bytes)
  | error
  | panicked
  deriving DecidableEq, Repr

def keyNew (bytes : Bytes) : KeyRes :=
  if bytes.length < 2 then .error
  else
    let keyLen := beVal (bytes.take 2)
    if keyLen > 0 then
      if bytes.length < keyLen + 2 then .panicked
      else .ok ((bytes.drop 2).take keyLen) (bytes.drop (keyLen + 2))
    else .error

/-- Modelled from the spec: `encode_key` is the inverse of `decode_key`
(spec section 4.1): 2-byte big-endian length prefix, then the key bytes.
This is also the Link payload format (spec section 3) and what
`Key::to_bytes` (missing crate root) produces for `Log::append`. -/
def encKey (k : Bytes) : Bytes := enc2 k.length ++ k

/-- `List::validate_and_extract`'s element loop (`types/list.rs`): runs the
object deserializer `deser` a given number of times and returns the
remaining bytes.  `deser` is the recursive call, passed explicitly so the
mutual recursion is structural on the deserializer's fuel. -/
def vListAux (deser : Bytes → Option (Obj × Bytes)) : Nat → Bytes → Option Bytes
  | 0, bytes => some bytes
  | k + 1, bytes =>
    match deser bytes with
    | none => none
    | some (_, rest) => vListAux deser k rest

/-- `Map::validate_and_extract`'s field loop (`types/map.rs`): per field
reads a 2-byte big-endian name length, the UTF-8 validated name, then a
serialized object. -/
def vMapAux (deser : Bytes → Option (Obj × Bytes)) : Nat → Bytes → Option Bytes
  | 0, bytes => some bytes
  | k + 1, bytes =>
    if bytes.length < 2 then none
    else
      let nameLen := beVal (bytes.take 2)
      let afterLen := bytes.drop 2
      if afterLen.length < nameLen then none
      else if utf8Valid (afterLen.take nameLen) then
        match deser (afterLen.drop nameLen) with
        | none => none
        | some (_, rest) => vMapAux deser k rest
      else none

/-- The per-type payload validators (`validate_and_extract` in
`types/{null,int,text,list,map,link}.rs`): given the payload slice after
the tag, return `(consumed_payload, remaining)` or an error.  The Link
validator delegates to the Key format (`types/link.rs` delegates to
`Key::validate_and_extract`, missing from the snapshot; modelled from the
spec: 2-byte big-endian length n > 0 then n key bytes, error when short). -/
def validatePayload (deser : Bytes → Option (Obj × Bytes)) :
    ObjKind → Bytes → Option (Bytes × Bytes)
  | .null, bytes => some ([], bytes)
  | .int, bytes =>
    if bytes.length < 8 then none else some (bytes.take 8, bytes.drop 8)
  | .text, bytes =>
    if bytes.length < 2 then none
    else
      let n := beVal (bytes.take 2)
      if bytes.length < 2 + n then none
      else if utf8Valid ((bytes.drop 2).take n) then
        some (bytes.take (2 + n), bytes.drop (2 + n))
      else none
  | .list, bytes =>
    if bytes.length < 2 then none
    else
      match vListAux deser (beVal (bytes.take 2)) (bytes.drop 2) with
      | none => none
      | some rem => some (bytes.take (bytes.length - rem.length), rem)
  | .map, bytes =>
    if bytes.length < 2 then none
    else
      match vMapAux deser (beVal (bytes.take 2)) (bytes.drop 2) with
      | none => none
      | some rem => some (bytes.take (bytes.length - rem.length), rem)
  | .link, bytes =>
    if bytes.length < 2 then none
    else
      let n := beVal (bytes.take 2)
      if n = 0 then none
      else if bytes.length < n + 2 then none
      else some (bytes.take (n + 2), bytes.drop (n + 2))

/-- Modelled from the spec: `Object::deserialize` (spec section 4.1
`decode_object`) reads the 1-byte tag, dispatches to the per-type
validator, and wraps the consumed payload as the object's data.  `fuel`
bounds the nesting depth; every nesting level consumes at least the tag
byte, so `bytes.length + 1` fuel (see `objDeserialize`) never runs out. -/
def deserializeF : Nat → Bytes → Option (Obj × Bytes)
  | 0, _ => none
  | fuel + 1, bytes =>
    match bytes with
    | [] => none
    | tag :: rest =>
      match kindOfTag tag with
      | none => none
      | some k =>
        match validatePayload (deserializeF fuel) k rest with
        | none => none
        | some (consumed, remaining) => some (⟨k, consumed⟩, remaining)

/-- `Object::deserialize` at adequate fuel. -/
def objDeserialize (bytes : Bytes) : Option (Obj × Bytes) :=
  deserializeF (bytes.length + 1) bytes

/-- `ListIterator` (`types/list.rs`): starting after the 2-byte count,
repeatedly deserialize objects until the payload is exhausted.  The
iterator trusts validity (`unwrap_unchecked`); a failing deserialize, or a
start offset past the data (the `&self.data[2..]` slice of a payload
shorter than 2 bytes), is undefined behaviour, modelled as `none`.
`fuel` bounds the element count; each element consumes at least one byte,
so `data.length` fuel suffices. -/
def iterElemsF : Nat → Bytes → Option (List Obj)
  | _, [] => some []
  | 0, _ => none
  | fuel + 1, bytes =>
    match objDeserialize bytes with
    | none => none
    | some (o, rest) =>
      match iterElemsF fuel rest with
      | none => none
      | some os => some (o :: os)

/-- The elements a `ListIterator` yields from a List payload. -/
def listElems (data : Bytes) : Option (List Obj) :=
  if data.length < 2 then none else iterElemsF data.length (data.drop 2)

/-- `MapIterator::next` (`types/map.rs`): reads the 2-byte name length,
then yields the name WITHOUT its length prefix — the slice
`&data[FIELD_NAME_LEN_NUM_BYTES..field_name_end_pos]` starts after the
length bytes — together with the deserialized object.  (The comment in the
source says "field name including the number of bytes", but the code
excludes them; the model follows the code.) -/
def iterFieldsF : Nat → Bytes → Option (List (Bytes × Obj))
  | _, [] => some []
  | 0, _ => none
  | fuel + 1, bytes =>
    if bytes.length < 2 then none
    else
      let nameLen := beVal (bytes.take 2)
      if bytes.length < 2 + nameLen then none
      else
        match objDeserialize (bytes.drop (2 + nameLen)) with
        | none => none
        | some (o, rest) =>
          match iterFieldsF fuel rest with
          | none => none
          | some fs => some (((bytes.drop 2).take nameLen, o) :: fs)

/-- The (name, object) pairs a `MapIterator` yields from a Map payload. -/
def mapFields (data : Bytes) : Option (List (Bytes × Obj)) :=
  if data.length < 2 then none else iterFieldsF data.length (data.drop 2)

/-- `ListBuilder` (`types/list.rs`) as used by `resolve_list_links`:
`new(list.len())` fixes the count, `add_item_no_increment` appends each
element's `serialize()`, `build` patches the count into the leading two
bytes. -/
def listBuild (cnt : Nat) (es : List Obj) : Obj :=
  ⟨.list, enc2 cnt ++ (es.map serializeObj).flatten⟩

/-- `MapBuilder` (`types/map.rs`) as used by `resolve_map_links`:
`add_field_no_increment(field_name, object)` appends the field-name bytes
exactly as given, then the object's `serialize()`. -/
def mapBuild (cnt : Nat) (fs : List (Bytes × Obj)) : Obj :=
  ⟨.map, enc2 cnt ++ (fs.map (fun p => p.1 ++ serializeObj p.2)).flatten⟩

/-- Modelled from the spec: `From<Link> for Key` (missing crate root)
extracts the embedded key from the Link payload, which has the encoded
Key format (spec section 3): drop the 2-byte length, take that many
bytes. -/
def keyOfLinkData (data : Bytes) : Bytes :=
  (data.drop 2).take (beVal (data.take 2))

/-- A Link object embedding key `k` (kind Link, payload `encKey k`). -/
def linkObjOf (k : Bytes) : Obj := ⟨.link, encKey k⟩

/-- The storage the resolver reads: `Store::retrieve` returns the stored
object, or Null for an absent key (`src/storage/src/lib.rs`); retrieval
from the in-memory backing store always succeeds, so the `?` in
`resolve_link` never propagates an error for this store. -/
abbrev Stor := Bytes → Obj

/-- The element loop of `resolve_list_links` (`link_resolver.rs` lines
76-79): resolves each element in order with the recursive call `rl`,
threading the resolver's `visited` set through the iteration (the set is a
field of `LinkResolver`, shared by all elements of one `resolve` call). -/
def resolveElemsGo (rl : List Bytes → Obj → Option (List Bytes × Obj)) :
    List Bytes → List Obj → Option (List Bytes × List Obj)
  | vis, [] => some (vis, [])
  | vis, e :: es =>
    match rl vis e with
    | none => none
    | some (vis', e') =>
      match resolveElemsGo rl vis' es with
      | none => none
      | some (v, es') => some (v, e' :: es')

/-- The field loop of `resolve_map_links` (`link_resolver.rs` lines
95-100): resolves each field value, keeping the name bytes the iterator
yielded. -/
def resolveFieldsGo (rl : List Bytes → Obj → Option (List Bytes × Obj)) :
    List Bytes → List (Bytes × Obj) → Option (List Bytes × List (Bytes × Obj))
  | vis, [] => some (vis, [])
  | vis, f :: fs =>
    match rl vis f.2 with
    | none => none
    | some (vis', o') =>
      match resolveFieldsGo rl vis' fs with
      | none => none
      | some (v, fs') => some (v, (f.1, o') :: fs')

/-- `LinkResolver::resolve_links` / `resolve_list_links` /
`resolve_map_links` / `resolve_link` (`link_resolver.rs`).

The source carries `resolution_depth` upward from 0 and returns the object
unchanged once `resolution_depth > max_resolution_depth`; every recursive
call — into a list element, a map value, or the object fetched for a link —
is made at `resolution_depth + 1`.  The model carries the equivalent
countdown `remaining = max_resolution_depth + 1 - resolution_depth`: the
guard fires at `remaining = 0` and every recursive call decrements, which
makes the recursion structural.

In the `.link` case: if the key is in `visited` the source rebuilds the
link via `Key -> Link -> Object`; `From<Link> for Object` in
`types/link.rs` sets `kind: ObjectKind::Int`, so the short-circuit result
has kind Int (faithfully modelled).  Otherwise it retrieves the object,
inserts the key into `visited`, and resolves the fetched object. -/
def resolveLinks (st : Stor) : Nat → List Bytes → Obj → Option (List Bytes × Obj)
  | 0 => fun vis o => some (vis, o)
  | r + 1 => fun vis o =>
    match o.kind with
    | .list =>
      match listElems o.data with
      | none => none
      | some es =>
        match resolveElemsGo (resolveLinks st r) vis es with
        | none => none
        | some (v, es') => some (v, listBuild (beVal (o.data.take 2)) es')
    | .map =>
      match mapFields o.data with
      | none => none
      | some fs =>
        match resolveFieldsGo (resolveLinks st r) vis fs with
        | none => none
        | some (v, fs') => some (v, mapBuild (beVal (o.data.take 2)) fs')
    | .link =>
      let key := keyOfLinkData o.data
      if key ∈ vis then some (vis, ⟨.int, encKey key⟩)
      else resolveLinks st r (key :: vis) (st key)
    | _ => some (vis, o)

/-- `LinkResolver::resolve`: resolution starts at depth 0 with an empty
visited set, i.e. at countdown `max_resolution_depth + 1`. -/
def resolveTop (st : Stor) (maxDepth : Nat) (o : Obj) : Option Obj :=
  (resolveLinks st (maxDepth + 1) [] o).map (·.2)

/-- The Int object with value 1 (8 big-endian payload bytes). -/
def intOneObj : Obj := ⟨.int, [0, 0, 0, 0, 0, 0, 0, 1]⟩

/-- A store holding Int 1 under key `"n"` (byte 110). -/
def stColonN : Stor := fun k => if k = [110] then intOneObj else nullObj

/-- Extracting the embedded key back out of an encoded link payload. -/
theorem keyOfLinkData_encKey (k : Bytes) (h : k.length ≤ 65535) :
    keyOfLinkData (encKey k) = k := by
  have htake : (enc2 k.length ++ k).take 2 = enc2 k.length := by
    rw [show (2 : Nat) = (enc2 k.length).length from rfl, List.take_left]
  have hdrop : (enc2 k.length ++ k).drop 2 = k := by
    rw [show (2 : Nat) = (enc2 k.length).length from rfl, List.drop_left]
  simp [keyOfLinkData, encKey, htake, hdrop, beVal_enc2 k.length (by omega)]

/-- Claim C4 (counterexample): with `max_depth = 0` and `"n"` bound to
Int 1, resolving a top-level `Link("n")` does NOT return the Link
unchanged: the resolver fetches the target and returns Int 1. -/
theorem resolver_depth0_link_cex :
    resolveTop stColonN 0 (linkObjOf [110]) = some intOneObj ∧
    resolveTop stColonN 0 (linkObjOf [110]) ≠ some (linkObjOf [110]) := by
  decide

/-- With `max_depth = 0` a top-level Link is resolved exactly once: for
every store and key, `resolve` fetches the stored object for the link's
key and returns it unchanged. -/
theorem resolveTop_depth0_link (st : Stor) (k : Bytes)
    (h : k.length ≤ 65535) :
    resolveTop st 0 (linkObjOf k) = some (st k) := by
  have hk := keyOfLinkData_encKey k h
  simp [resolveTop, resolveLinks, linkObjOf, hk]

/-- `resolveLinks` instrumented with the number of Link edges traversed:
the third component of a result is the maximum number of store fetches
nested along any single recursion path of the call — i.e. the maximal
number of Link edges traversed on any root-to-leaf path of the output.
`resolveLinksD_proj` proves the instrumentation exact: erasing the
counter gives back `resolveLinks`.  Element loop of the `.list` case. -/
def resolveElemsGoD (rl : List Bytes → Obj → Option (List Bytes × Obj × Nat)) :
    List Bytes → List Obj → Option (List Bytes × List Obj × Nat)
  | vis, [] => some (vis, [], 0)
  | vis, e :: es =>
    match rl vis e with
    | none => none
    | some (vis', e', d) =>
      match resolveElemsGoD rl vis' es with
      | none => none
      | some (v, es', ds) => some (v, e' :: es', max d ds)

/-- Field loop of the `.map` case of the instrumented resolver. -/
def resolveFieldsGoD (rl : List Bytes → Obj → Option (List Bytes × Obj × Nat)) :
    List Bytes → List (Bytes × Obj) → Option (List Bytes × List (Bytes × Obj) × Nat)
  | vis, [] => some (vis, [], 0)
  | vis, f :: fs =>
    match rl vis f.2 with
    | none => none
    | some (vis', o', d) =>
      match resolveFieldsGoD rl vis' fs with
      | none => none
      | some (v, fs', ds) => some (v, (f.1, o') :: fs', max d ds)

/-- The instrumented resolver: identical recursion structure to
`resolveLinks`, additionally counting one Link edge per store fetch (the
non-visited `.link` branch); composite nodes take the maximum over their
children, scalars and the cycle short-circuit traverse nothing. -/
def resolveLinksD (st : Stor) : Nat → List Bytes → Obj → Option (List Bytes × Obj × Nat)
  | 0 => fun vis o => some (vis, o, 0)
  | r + 1 => fun vis o =>
    match o.kind with
    | .list =>
      match listElems o.data with
      | none => none
      | some es =>
        match resolveElemsGoD (resolveLinksD st r) vis es with
        | none => none
        | some (v, es', d) => some (v, listBuild (beVal (o.data.take 2)) es', d)
    | .map =>
      match mapFields o.data with
      | none => none
      | some fs =>
        match resolveFieldsGoD (resolveLinksD st r) vis fs with
        | none => none
        | some (v, fs', d) => some (v, mapBuild (beVal (o.data.take 2)) fs', d)
    | .link =>
      let key := keyOfLinkData o.data
      if key ∈ vis then some (vis, ⟨.int, encKey key⟩, 0)
      else
        match resolveLinksD st r (key :: vis) (st key) with
        | none => none
        | some (v, o', d) => some (v, o', d + 1)
    | _ => some (vis, o, 0)

theorem resolveElemsGoD_proj
    (rlD : List Bytes → Obj → Option (List Bytes × Obj × Nat))
    (rl : List Bytes → Obj → Option (List Bytes × Obj))
    (h : ∀ vis e, (rlD vis e).map (fun x => (x.1, x.2.1)) = rl vis e) :
    ∀ vis es, (resolveElemsGoD rlD vis es).map (fun x => (x.1, x.2.1))
      = resolveElemsGo rl vis es := by
  intro vis es
  induction es generalizing vis with
  | nil => rfl
  | cons e es ih =>
    rw [resolveElemsGoD, resolveElemsGo]
    cases hD : rlD vis e with
    | none =>
      have he2 : rl vis e = none := by rw [← h vis e, hD]; rfl
      rw [he2]
      rfl
    | some t =>
      obtain ⟨v', e', d⟩ := t
      have he2 : rl vis e = some (v', e') := by rw [← h vis e, hD]; rfl
      cases hG : resolveElemsGoD rlD v' es with
      | none =>
        have hes : resolveElemsGo rl v' es = none := by rw [← ih v', hG]; rfl
        simp [he2, hes, hG]
      | some u =>
        obtain ⟨v, es', ds⟩ := u
        have hes : resolveElemsGo rl v' es = some (v, es') := by
          rw [← ih v', hG]; rfl
        simp [he2, hes, hG]

theorem resolveFieldsGoD_proj
    (rlD : List Bytes → Obj → Option (List Bytes × Obj × Nat))
    (rl : List Bytes → Obj → Option (List Bytes × Obj))
    (h : ∀ vis e, (rlD vis e).map (fun x => (x.1, x.2.1)) = rl vis e) :
    ∀ vis fs, (resolveFieldsGoD rlD vis fs).map (fun x => (x.1, x.2.1))
      = resolveFieldsGo rl vis fs := by
  intro vis fs
  induction fs generalizing vis with
  | nil => rfl
  | cons f fs ih =>
    rw [resolveFieldsGoD, resolveFieldsGo]
    cases hD : rlD vis f.2 with
    | none =>
      have he2 : rl vis f.2 = none := by rw [← h vis f.2, hD]; rfl
      rw [he2]
      rfl
    | some t =>
      obtain ⟨v', o', d⟩ := t
      have he2 : rl vis f.2 = some (v', o') := by rw [← h vis f.2, hD]; rfl
      cases hG : resolveFieldsGoD rlD v' fs with
      | none =>
        have hfs : resolveFieldsGo rl v' fs = none := by rw [← ih v', hG]; rfl
        simp [he2, hfs, hG]
      | some u =>
        obtain ⟨v, fs', ds⟩ := u
        have hfs : resolveFieldsGo rl v' fs = some (v, fs') := by
          rw [← ih v', hG]; rfl
        simp [he2, hfs, hG]

/-- Erasing the edge counter from the instrumented resolver gives exactly
`resolveLinks`: the instrumentation changes nothing about the result. -/
theorem resolveLinksD_proj (st : Stor) :
    ∀ (r : Nat) (vis : List Bytes) (o : Obj),
      (resolveLinksD st r vis o).map (fun x => (x.1, x.2.1))
        = resolveLinks st r vis o := by
  intro r
  induction r with
  | zero => intro vis o; rfl
  | succ r ih =>
    intro vis o
    obtain ⟨k, data⟩ := o
    cases k with
    | list =>
      simp only [resolveLinksD, resolveLinks]
      cases hE : listElems data with
      | none => rfl
      | some es =>
        have hGo := resolveElemsGoD_proj (resolveLinksD st r) (resolveLinks st r)
          ih vis es
        cases hG : resolveElemsGoD (resolveLinksD st r) vis es with
        | none =>
          have hes : resolveElemsGo (resolveLinks st r) vis es = none := by
            rw [← hGo, hG]; rfl
          simp [hE, hes, hG]
        | some u =>
          obtain ⟨v, es', d⟩ := u
          have hes : resolveElemsGo (resolveLinks st r) vis es = some (v, es') := by
            rw [← hGo, hG]; rfl
          simp [hE, hes, hG]
    | map =>
      simp only [resolveLinksD, resolveLinks]
      cases hE : mapFields data with
      | none => rfl
      | some fs =>
        have hGo := resolveFieldsGoD_proj (resolveLinksD st r) (resolveLinks st r)
          ih vis fs
        cases hG : resolveFieldsGoD (resolveLinksD st r) vis fs with
        | none =>
          have hfs : resolveFieldsGo (resolveLinks st r) vis fs = none := by
            rw [← hGo, hG]; rfl
          simp [hE, hfs, hG]
        | some u =>
          obtain ⟨v, fs', d⟩ := u
          have hfs : resolveFieldsGo (resolveLinks st r) vis fs = some (v, fs') := by
            rw [← hGo, hG]; rfl
          simp [hE, hfs, hG]
    | link =>
      simp only [resolveLinksD, resolveLinks]
      by_cases hMem : keyOfLinkData data ∈ vis
      · simp [hMem]
      · cases hD : resolveLinksD st r (keyOfLinkData data :: vis)
            (st (keyOfLinkData data)) with
        | none =>
          have hrec : resolveLinks st r (keyOfLinkData data :: vis)
              (st (keyOfLinkData data)) = none := by
            rw [← ih _ _, hD]; rfl
          simp [hMem, hrec, hD]
        | some t =>
          obtain ⟨v, o', d⟩ := t
          have hrec : resolveLinks st r (keyOfLinkData data :: vis)
              (st (keyOfLinkData data)) = some (v, o') := by
            rw [← ih _ _, hD]; rfl
          simp [hMem, hrec, hD]
    | null => rfl
    | int => rfl
    | text => rfl

theorem resolveElemsGoD_le
    (rlD : List Bytes → Obj → Option (List Bytes × Obj × Nat)) (r : Nat)
    (h : ∀ vis e v e2 d, rlD vis e = some (v, e2, d) → d ≤ r) :
    ∀ vis es v es2 d, resolveElemsGoD rlD vis es = some (v, es2, d) → d ≤ r := by
  intro vis es
  induction es generalizing vis with
  | nil =>
    intro v es2 d hd
    simp only [resolveElemsGoD, Option.some.injEq, Prod.mk.injEq] at hd
    obtain ⟨h1, h2, h3⟩ := hd
    omega
  | cons e es ih =>
    intro v es2 d hd
    simp only [resolveElemsGoD] at hd
    cases hD : rlD vis e with
    | none => simp [hD] at hd
    | some t =>
      obtain ⟨v', e', d1⟩ := t
      simp only [hD] at hd
      cases hG : resolveElemsGoD rlD v' es with
      | none => simp [hG] at hd
      | some u =>
        obtain ⟨v2, es', d2⟩ := u
        simp only [hG, Option.some.injEq, Prod.mk.injEq] at hd
        obtain ⟨h1, h2, h3⟩ := hd
        have hd1 := h vis e v' e' d1 hD
        have hd2 := ih v' v2 es' d2 hG
        exact h3 ▸ max_le hd1 hd2

theorem resolveFieldsGoD_le
    (rlD : List Bytes → Obj → Option (List Bytes × Obj × Nat)) (r : Nat)
    (h : ∀ vis e v e2 d, rlD vis e = some (v, e2, d) → d ≤ r) :
    ∀ vis fs v fs2 d, resolveFieldsGoD rlD vis fs = some (v, fs2, d) → d ≤ r := by
  intro vis fs
  induction fs generalizing vis with
  | nil =>
    intro v fs2 d hd
    simp only [resolveFieldsGoD, Option.some.injEq, Prod.mk.injEq] at hd
    obtain ⟨h1, h2, h3⟩ := hd
    omega
  | cons f fs ih =>
    intro v fs2 d hd
    simp only [resolveFieldsGoD] at hd
    cases hD : rlD vis f.2 with
    | none => simp [hD] at hd
    | some t =>
      obtain ⟨v', o', d1⟩ := t
      simp only [hD] at hd
      cases hG : resolveFieldsGoD rlD v' fs with
      | none => simp [hG] at hd
      | some u =>
        obtain ⟨v2, fs', d2⟩ := u
        simp only [hG, Option.some.injEq, Prod.mk.injEq] at hd
        obtain ⟨h1, h2, h3⟩ := hd
        have hd1 := h vis f.2 v' o' d1 hD
        have hd2 := ih v' v2 fs' d2 hG
        exact h3 ▸ max_le hd1 hd2

/-- The traversal count never exceeds the remaining depth budget: each
fetch costs one unit, composites pass the decremented budget down. -/
theorem resolveLinksD_le (st : Stor) :
    ∀ (r : Nat) (vis : List Bytes) (o : Obj) (v : List Bytes) (o2 : Obj) (d : Nat),
      resolveLinksD st r vis o = some (v, o2, d) → d ≤ r := by
  intro r
  induction r with
  | zero =>
    intro vis o v o2 d hd
    simp only [resolveLinksD, Option.some.injEq, Prod.mk.injEq] at hd
    obtain ⟨h1, h2, h3⟩ := hd
    omega
  | succ r ih =>
    intro vis o v o2 d hd
    obtain ⟨k, data⟩ := o
    cases k with
    | list =>
      simp only [resolveLinksD] at hd
      cases hE : listElems data with
      | none => simp [hE] at hd
      | some es =>
        simp only [hE] at hd
        cases hG : resolveElemsGoD (resolveLinksD st r) vis es with
        | none => simp [hG] at hd
        | some u =>
          obtain ⟨v', es', d'⟩ := u
          simp only [hG, Option.some.injEq, Prod.mk.injEq] at hd
          obtain ⟨h1, h2, h3⟩ := hd
          have hb := resolveElemsGoD_le (resolveLinksD st r) r
            (fun vis e v e2 dd hdd => ih vis e v e2 dd hdd) vis es v' es' d' hG
          omega
    | map =>
      simp only [resolveLinksD] at hd
      cases hE : mapFields data with
      | none => simp [hE] at hd
      | some fs =>
        simp only [hE] at hd
        cases hG : resolveFieldsGoD (resolveLinksD st r) vis fs with
        | none => simp [hG] at hd
        | some u =>
          obtain ⟨v', fs', d'⟩ := u
          simp only [hG, Option.some.injEq, Prod.mk.injEq] at hd
          obtain ⟨h1, h2, h3⟩ := hd
          have hb := resolveFieldsGoD_le (resolveLinksD st r) r
            (fun vis e v e2 dd hdd => ih vis e v e2 dd hdd) vis fs v' fs' d' hG
          omega
    | link =>
      simp only [resolveLinksD] at hd
      by_cases hMem : keyOfLinkData data ∈ vis
      · rw [if_pos hMem] at hd
        simp only [Option.some.injEq, Prod.mk.injEq] at hd
        obtain ⟨h1, h2, h3⟩ := hd
        omega
      · rw [if_neg hMem] at hd
        cases hD : resolveLinksD st r (keyOfLinkData data :: vis)
            (st (keyOfLinkData data)) with
        | none => simp [hD] at hd
        | some t =>
          obtain ⟨v', o', d'⟩ := t
          simp only [hD, Option.some.injEq, Prod.mk.injEq] at hd
          obtain ⟨h1, h2, h3⟩ := hd
          have hb := ih _ _ v' o' d' hD
          omega
    | null =>
      simp only [resolveLinksD, Option.some.injEq, Prod.mk.injEq] at hd
      obtain ⟨h1, h2, h3⟩ := hd
      omega
    | int =>
      simp only [resolveLinksD, Option.some.injEq, Prod.mk.injEq] at hd
      obtain ⟨h1, h2, h3⟩ := hd
      omega
    | text =>
      simp only [resolveLinksD, Option.some.injEq, Prod.mk.injEq] at hd
      obtain ⟨h1, h2, h3⟩ := hd
      omega

/-- Claim C4 (amended): for every store, object and `max_depth`, the
resolver traverses at most `max_depth + 1` Link edges on any root-to-leaf
path — not `max_depth`: erasing the counter of the instrumented resolver
gives exactly `resolveLinks` run by `resolve`, and that counter (the
maximal number of store fetches nested along one recursion path) is
bounded by `max_depth + 1`; in particular with `max_depth = 0` a
top-level Link is resolved exactly once — its target is fetched from the
store and returned unchanged — rather than returned unchanged without
fetching. -/
theorem resolver_link_edge_bound_amended (st : Stor) (maxDepth : Nat) (o : Obj) :
    ((resolveLinksD st (maxDepth + 1) [] o).map (fun x => (x.1, x.2.1))
        = resolveLinks st (maxDepth + 1) [] o)
    ∧ (∀ v o2 d, resolveLinksD st (maxDepth + 1) [] o = some (v, o2, d) →
        d ≤ maxDepth + 1)
    ∧ (∀ k : Bytes, k.length ≤ 65535 →
        resolveTop st 0 (linkObjOf k) = some (st k)) :=
  ⟨resolveLinksD_proj st (maxDepth + 1) [] o,
    fun v o2 d hd => resolveLinksD_le st (maxDepth + 1) [] o v o2 d hd,
    fun k hk => resolveTop_depth0_link st k hk⟩

theorem resolver_link_edge_bound_amended_witness :
    ((resolveLinksD stColonN (0 + 1) [] (linkObjOf [110])).map (fun x => (x.1, x.2.1))
        = resolveLinks stColonN (0 + 1) [] (linkObjOf [110]))
    ∧ (1 : Nat) ≤ 0 + 1
    ∧ resolveTop stColonN 0 (linkObjOf [110]) = some (stColonN [110]) :=
  ⟨(resolver_link_edge_bound_amended stColonN 0 (linkObjOf [110])).1,
    (resolver_link_edge_bound_amended stColonN 0 (linkObjOf [110])).2.1
      [[110]] intOneObj 1 (by decide),
    (resolver_link_edge_bound_amended stColonN 0 (linkObjOf [110])).2.2
      [110] (by decide)⟩

/-- The two-key cyclic store: `"a"` ↦ Link(`"b"`), `"b"` ↦ Link(`"a"`). -/
def stCycle : Stor := fun k =>
  if k = [97] then linkObjOf [98]
  else if k = [98] then linkObjOf [97] else nullObj

/-- Claim C5: after SET `"a"` = Link(`"b"`) and SET `"b"` = Link(`"a"`),
resolving `"a"`'s object with `max_depth = 10` terminates, and the cycle
short-circuit returns the re-built link — but `From<Link> for Object`
(`types/link.rs` lines 20-27) sets `kind: ObjectKind::Int`, so the
returned object's kind is Int, not Link as the claim states: the code
contradicts the claim (and the surrounding conversions, which tag Link
objects with the Link kind). -/
theorem resolver_cycle_kind_int_bug :
    resolveTop stCycle 10 (linkObjOf [97]) = some ⟨.int, [0, 1, 97]⟩ ∧
    ObjKind.int ≠ ObjKind.link := by
  decide

/-- The list `[Link("n"), Link("n")]` of scenario 5. -/
def listLinkNN : Obj :=
  ⟨.list, enc2 2 ++ serializeObj (linkObjOf [110]) ++ serializeObj (linkObjOf [110])⟩

/-- The store of scenario 5: `"n"` ↦ Int 1, `"l"` ↦ the list above. -/
def stScenario5 : Stor := fun k =>
  if k = [110] then intOneObj
  else if k = [108] then listLinkNN else nullObj

/-- Claim C6 (counterexample): resolving `List[Link("n"), Link("n")]` with
`max_depth = 1` does NOT return `List[Int(1), Int(1)]`: the per-call
visited set already contains `"n"` when the second sibling is reached, so
the second link is short-circuited instead of resolved. -/
theorem resolver_sibling_links_cex :
    resolveTop stScenario5 1 listLinkNN ≠
      some ⟨.list, enc2 2 ++ serializeObj intOneObj ++ serializeObj intOneObj⟩ := by
  decide

/-- Claim C6 (amended): resolving `List[Link("n"), Link("n")]` with
`max_depth = 1` replaces only the first occurrence by Int(1); the second,
repeated sibling link is short-circuited by the visited set (which
persists across sibling positions within one `resolve` call) and is
emitted through `From<Link> for Object` with the Int kind and the encoded
key `"n"` as payload. -/
theorem resolver_sibling_links_amended :
    resolveTop stScenario5 1 listLinkNN =
      some ⟨.list, enc2 2 ++ serializeObj intOneObj ++ [1, 0, 1, 110]⟩ := by
  decide

/-- The map `{"a": Null}`: one field, name length 1, name byte 97,
serialized Null object. -/
def mapFieldA : Obj := ⟨.map, [0, 1, 0, 1, 97, 0]⟩

/-- Claim C7: resolving a link-free Map is NOT the identity: the map
iterator yields each field name without its 2-byte length prefix (the
slice in `MapIterator::next` starts after the length bytes, although the
builder documents that it "requires the field_name (with the prefixed
length)" and the iterator's own comment says the name includes them), so
the rebuilt map payload `[0,1,97,0]` loses the `[0,1]` name-length prefix
of the original `[0,1,0,1,97,0]` — at every depth. -/
theorem resolver_map_rebuild_drops_name_len_bug :
    resolveTop (fun _ => nullObj) 0 mapFieldA = some ⟨.map, [0, 1, 97, 0]⟩ ∧
    resolveTop (fun _ => nullObj) 0 mapFieldA ≠ some mapFieldA ∧
    resolveTop (fun _ => nullObj) 3 mapFieldA ≠ some mapFieldA := by
  decide

/-- Claim C8: `Key::new` returns an error on a missing or zero length
prefix, but on a declared length exceeding the remaining bytes it panics
(out-of-range slice) instead of returning the error the claim (and the
function's own short-data check) calls for: `[0x00, 0x02, 0x61]` declares
2 key bytes with only 1 present. -/
theorem keyNew_short_panics_bug :
    keyNew [0, 2, 97] = .panicked ∧
    keyNew [0, 0] = .error ∧
    keyNew [] = .error ∧
    keyNew [0, 1, 97, 9, 9] = .ok [97] [9, 9] := by
  decide

/-- The logged operations of the append-only log (`append_only_log.rs`):
`Log::Set` (on-disk op byte 0) and `Log::Del` (op byte 1). -/
inductive LogOp where
  | set (key : Bytes) (obj : Obj)
  | del (key : Bytes)
  deriving DecidableEq, Repr

/-- The record body `Log::append` writes after the size field: the op
byte, then the encoded key, then (for Set) the serialized object. -/
def logBody : LogOp → Bytes
  | .set k o => 0 :: (encKey k ++ serializeObj o)
  | .del k => 1 :: encKey k

/-- Calls made to the backing store by the append-only-log wrapper. -/
inductive BackCall where
  | store (key : Bytes) (obj : Obj)
  | remove (key : Bytes)
  deriving DecidableEq, Repr

/-- `impl Store for AppendOnlyLogStore` — `store` (`append_only_log.rs`
lines 305-317).  `logOk` tells whether `self.log(log)` succeeded (the
framed `write_all` plus `sync_all` under the file mutex); the backing
store of type state `σ` is abstract, given by its `store` function; the
third component records which backing-store calls were made.  `none`
models `Err(StoreError)`. -/
def aolStore {σ : Type} (bStore : σ → Bytes → Obj → Obj × σ) (logOk : Bool)
    (s : σ) (k : Bytes) (o : Obj) : Option Obj × σ × List BackCall :=
  if logOk then
    ((bStore s k o).1, (bStore s k o).2, [.store k o])
  else (none, s, [])

/-- `impl Store for AppendOnlyLogStore` — `remove` (lines 323-333). -/
def aolRemove {σ : Type} (bRemove : σ → Bytes → Obj × σ) (logOk : Bool)
    (s : σ) (k : Bytes) : Option Obj × σ × List BackCall :=
  if logOk then
    ((bRemove s k).1, (bRemove s k).2, [.remove k])
  else (none, s, [])

/-- Claim C1: when the framed log write or fsync fails, `store` and
`remove` return an error, make no call into the backing store, and leave
its state unchanged. -/
theorem aol_store_remove_error_path {σ : Type}
    (bStore : σ → Bytes → Obj → Obj × σ) (bRemove : σ → Bytes → Obj × σ)
    (logOk : Bool) (s : σ) (k : Bytes) (o : Obj) (h : logOk = false) :
    aolStore bStore logOk s k o = (none, s, []) ∧
    aolRemove bRemove logOk s k = (none, s, []) := by
  subst h
  simp [aolStore, aolRemove]

/-- One shard of `ConcurrentMap` (`concurrent-map/src/lib.rs`): a
`HashMap`, modelled extensionally as a partial function from keys. -/
def Shard (V : Type) := Bytes → Option V

/-- `HashMap::insert`: returns the prior value and the updated map. -/
def shardInsert {V : Type} (f : Shard V) (k : Bytes) (v : V) :
    Option V × Shard V :=
  (f k, fun k2 => if k2 = k then some v else f k2)

/-- `HashMap::remove`: returns the removed value and the updated map. -/
def shardRemove {V : Type} (f : Shard V) (k : Bytes) : Option V × Shard V :=
  (f k, fun k2 => if k2 = k then none else f k2)

/-- `ConcurrentMap` (`concurrent-map/src/lib.rs`): a fixed vector of
shards; locking is immaterial for the sequential semantics modelled
here.  `ConcurrentMap::new(num_shards)` pushes `num_shards` empty maps. -/
structure CMap (V : Type) where
  shards : List (Shard V)

def cmNew (V : Type) (numShards : Nat) : CMap V :=
  ⟨List.replicate numShards (fun _ => none)⟩

/-- `ConcurrentMap::shard_index`: a stable hash of the key modulo
`num_shards()` (which is `self.shards.len()`).  `DefaultHasher::new()`
seeds deterministically, so the hash is a fixed function `hash` of the
key for the life of the process. -/
def shardIndex {V : Type} (hash : Bytes → Nat) (m : CMap V) (k : Bytes) : Nat :=
  hash k % m.shards.length

/-- `ConcurrentMap::insert`: pick the key's shard (the source reads it
with `get_unchecked`; the model's `getD` default is only reached when the
index is out of bounds, which `concurrentMap_shard_index_safety` rules
out), insert, write the shard back. -/
def cmInsert {V : Type} (hash : Bytes → Nat) (m : CMap V) (k : Bytes) (v : V) :
    Option V × CMap V :=
  let i := shardIndex hash m k
  let r := shardInsert (m.shards.getD i (fun _ => none)) k v
  (r.1, ⟨m.shards.set i r.2⟩)

/-- `ConcurrentMap::get` (the caller clones the value out). -/
def cmGet {V : Type} (hash : Bytes → Nat) (m : CMap V) (k : Bytes) : Option V :=
  (m.shards.getD (shardIndex hash m k) (fun _ => none)) k

/-- `ConcurrentMap::remove`. -/
def cmRemove {V : Type} (hash : Bytes → Nat) (m : CMap V) (k : Bytes) :
    Option V × CMap V :=
  let i := shardIndex hash m k
  let r := shardRemove (m.shards.getD i (fun _ => none)) k
  (r.1, ⟨m.shards.set i r.2⟩)

theorem cmInsert_shards_length {V : Type} (hash : Bytes → Nat) (m : CMap V)
    (k : Bytes) (v : V) :
    (cmInsert hash m k v).2.shards.length = m.shards.length :=
  List.length_set ..

theorem cmRemove_shards_length {V : Type} (hash : Bytes → Nat) (m : CMap V)
    (k : Bytes) :
    (cmRemove hash m k).2.shards.length = m.shards.length :=
  List.length_set ..

/-- Reading back through an insert: the inserted key sees the new value,
every other key is untouched (whether it hashes to the same shard or a
different one). -/
theorem cmGet_cmInsert {V : Type} (hash : Bytes → Nat) (m : CMap V)
    (kins kq : Bytes) (v : V) (hlen : 0 < m.shards.length) :
    cmGet hash (cmInsert hash m kins v).2 kq =
      if kins = kq then some v else cmGet hash m kq := by
  have hi : hash kins % m.shards.length < m.shards.length := Nat.mod_lt _ hlen
  by_cases hk : kins = kq
  · subst hk
    simp [cmGet, cmInsert, shardInsert, shardIndex, List.length_set,
      List.getD_eq_getElem?_getD, List.getElem?_set_eq_of_lt _ hi]
  · rw [if_neg hk]
    by_cases hsh : hash kins % m.shards.length = hash kq % m.shards.length
    · have hi2 : hash kq % m.shards.length < m.shards.length := hsh ▸ hi
      simp [cmGet, cmInsert, shardInsert, shardIndex, List.length_set, hsh,
        List.getD_eq_getElem?_getD, List.getElem?_set_eq_of_lt _ hi2, Ne.symm hk]
    · simp [cmGet, cmInsert, shardInsert, shardIndex, List.length_set,
        List.getD_eq_getElem?_getD, List.getElem?_set_ne hsh]

/-- Reading back through a remove. -/
theorem cmGet_cmRemove {V : Type} (hash : Bytes → Nat) (m : CMap V)
    (krm kq : Bytes) (hlen : 0 < m.shards.length) :
    cmGet hash (cmRemove hash m krm).2 kq =
      if krm = kq then none else cmGet hash m kq := by
  have hi : hash krm % m.shards.length < m.shards.length := Nat.mod_lt _ hlen
  by_cases hk : krm = kq
  · subst hk
    simp [cmGet, cmRemove, shardRemove, shardIndex, List.length_set,
      List.getD_eq_getElem?_getD, List.getElem?_set_eq_of_lt _ hi]
  · rw [if_neg hk]
    by_cases hsh : hash krm % m.shards.length = hash kq % m.shards.length
    · have hi2 : hash kq % m.shards.length < m.shards.length := hsh ▸ hi
      simp [cmGet, cmRemove, shardRemove, shardIndex, List.length_set, hsh,
        List.getD_eq_getElem?_getD, List.getElem?_set_eq_of_lt _ hi2, Ne.symm hk]
    · simp [cmGet, cmRemove, shardRemove, shardIndex, List.length_set,
        List.getD_eq_getElem?_getD, List.getElem?_set_ne hsh]

theorem cmInsert_fst {V : Type} (hash : Bytes → Nat) (m : CMap V)
    (k : Bytes) (v : V) : (cmInsert hash m k v).1 = cmGet hash m k := rfl

theorem cmRemove_fst {V : Type} (hash : Bytes → Nat) (m : CMap V)
    (k : Bytes) : (cmRemove hash m k).1 = cmGet hash m k := rfl

/-- Claim C9: for a map with at least one shard, `shard_index` is in
bounds (so `get_unchecked` in `shard()` never reads out of range), and
because equal keys always hash to the same index, `insert`, `get` and
`remove` for one key all address the same shard: a `get` and a `remove`
right after an `insert` of the same key find the inserted value. -/
theorem concurrentMap_shard_index_safety {V : Type} (hash : Bytes → Nat)
    (m : CMap V) (k : Bytes) (v : V) (hlen : 0 < m.shards.length) :
    shardIndex hash m k < m.shards.length ∧
    cmGet hash (cmInsert hash m k v).2 k = some v ∧
    (cmRemove hash (cmInsert hash m k v).2 k).1 = some v := by
  refine ⟨Nat.mod_lt _ hlen, ?_, ?_⟩
  · rw [cmGet_cmInsert hash m k k v hlen, if_pos rfl]
  · rw [cmRemove_fst, cmGet_cmInsert hash m k k v hlen, if_pos rfl]

theorem concurrentMap_shard_index_safety_witness :
    0 < (cmNew Nat 4).shards.length ∧
    (shardIndex (fun k => k.length) (cmNew Nat 4) [5] < (cmNew Nat 4).shards.length ∧
      cmGet (fun k => k.length) (cmInsert (fun k => k.length) (cmNew Nat 4) [5] 7).2 [5]
        = some 7 ∧
      (cmRemove (fun k => k.length) (cmInsert (fun k => k.length) (cmNew Nat 4) [5] 7).2 [5]).1
        = some 7) :=
  ⟨by decide,
    concurrentMap_shard_index_safety (fun k => k.length) (cmNew Nat 4) [5] 7 (by decide)⟩

/-- `StoredObject` (`storage/src/lib.rs`): an object with its last-update
Unix timestamp in seconds. -/
structure StoredObject where
  object : Obj
  updated_time : Nat
  deriving DecidableEq, Repr

/-- `InMemoryStore::store`: wrap the object in a `StoredObject` stamped
with the current time (`SystemTime::now`, passed in as `t`), insert,
return the prior object or Null (the `Option<Object> -> Object`
conversion — `From<Option<Object>> for Object`, missing crate root — is
modelled from the spec: prior object, or Null when absent). -/
def imStore (hash : Bytes → Nat) (m : CMap StoredObject) (k : Bytes)
    (o : Obj) (t : Nat) : Obj × CMap StoredObject :=
  let r := cmInsert hash m k ⟨o, t⟩
  ((r.1.map (·.object)).getD nullObj, r.2)

/-- `InMemoryStore::retrieve`: clone the current object or Null. -/
def imRetrieve (hash : Bytes → Nat) (m : CMap StoredObject) (k : Bytes) : Obj :=
  ((cmGet hash m k).map (·.object)).getD nullObj

/-- `InMemoryStore::remove`: remove and return the prior object or Null. -/
def imRemove (hash : Bytes → Nat) (m : CMap StoredObject) (k : Bytes) :
    Obj × CMap StoredObject :=
  let r := cmRemove hash m k
  ((r.1.map (·.object)).getD nullObj, r.2)

/-- `InMemoryStore::get_updated_time`: the entry's timestamp, 0 if the
key is absent. -/
def imUpdatedTime (hash : Bytes → Nat) (m : CMap StoredObject) (k : Bytes) : Nat :=
  ((cmGet hash m k).map (·.updated_time)).getD 0

/-- A store or remove operation issued to the in-memory store; `time` is
the clock reading at the store call. -/
inductive SOp where
  | store (key : Bytes) (obj : Obj) (time : Nat)
  | remove (key : Bytes)

/-- Running a sequence of operations against the in-memory store. -/
def runOps (hash : Bytes → Nat) (m : CMap StoredObject) : List SOp → CMap StoredObject
  | [] => m
  | .store k o t :: ops => runOps hash (imStore hash m k o t).2 ops
  | .remove k :: ops => runOps hash (imRemove hash m k).2 ops

/-- The entry a key should hold after a sequence of operations, starting
from `acc`: the stored object (with its timestamp) of the most recent
`store` on that key not followed by a later `remove` of it. -/
def specStoredFrom (k : Bytes) (acc : Option StoredObject) :
    List SOp → Option StoredObject
  | [] => acc
  | .store k2 o t :: ops =>
    specStoredFrom k (if k2 = k then some ⟨o, t⟩ else acc) ops
  | .remove k2 :: ops =>
    specStoredFrom k (if k2 = k then none else acc) ops

/-- The object a `GET` should observe after `ops` on a fresh store. -/
def specLast (ops : List SOp) (k : Bytes) : Option Obj :=
  (specStoredFrom k none ops).map (·.object)

theorem cmGet_runOps (hash : Bytes → Nat) (ops : List SOp) :
    ∀ (m : CMap StoredObject), 0 < m.shards.length → ∀ k : Bytes,
      cmGet hash (runOps hash m ops) k = specStoredFrom k (cmGet hash m k) ops := by
  induction ops with
  | nil => intro m _ k; rfl
  | cons op ops ih =>
    intro m hlen k
    cases op with
    | store k2 o t =>
      rw [show runOps hash m (.store k2 o t :: ops)
          = runOps hash (imStore hash m k2 o t).2 ops from rfl]
      rw [ih (imStore hash m k2 o t).2
        (by simpa [imStore, cmInsert_shards_length] using hlen) k]
      rw [show (imStore hash m k2 o t).2 = (cmInsert hash m k2 ⟨o, t⟩).2 from rfl]
      rw [cmGet_cmInsert hash m k2 k ⟨o, t⟩ hlen]
      rfl
    | remove k2 =>
      rw [show runOps hash m (.remove k2 :: ops)
          = runOps hash (imRemove hash m k2).2 ops from rfl]
      rw [ih (imRemove hash m k2).2
        (by simpa [imRemove, cmRemove_shards_length] using hlen) k]
      rw [show (imRemove hash m k2).2 = (cmRemove hash m k2).2 from rfl]
      rw [cmGet_cmRemove hash m k2 k hlen]
      rfl

/-- Claim C3: after any sequence of store/remove operations on a fresh
store, `retrieve k` returns the object of the most recent `store(k, _)`
not followed by a later `remove(k)` and Null otherwise; a further `store`
returns that same prior object (or Null), `remove` returns the removed
object (or Null), and `get_updated_time` returns 0 when the key is
absent. -/
theorem inMemoryStore_sequence_semantics (hash : Bytes → Nat)
    (numShards : Nat) (hn : 0 < numShards) (ops : List SOp) (k : Bytes) :
    imRetrieve hash (runOps hash (cmNew StoredObject numShards) ops) k
        = (specLast ops k).getD nullObj
    ∧ (∀ o t, (imStore hash (runOps hash (cmNew StoredObject numShards) ops) k o t).1
        = (specLast ops k).getD nullObj)
    ∧ (imRemove hash (runOps hash (cmNew StoredObject numShards) ops) k).1
        = (specLast ops k).getD nullObj
    ∧ (specLast ops k = none →
        imUpdatedTime hash (runOps hash (cmNew StoredObject numShards) ops) k = 0) := by
  have hfresh : ∀ k2, cmGet hash (cmNew StoredObject numShards) k2 = none := by
    intro k2
    simp only [cmGet, cmNew, List.getD_eq_getElem?_getD, List.getElem?_replicate]
    split <;> rfl
  have hlen : 0 < (cmNew StoredObject numShards).shards.length := by
    simpa [cmNew] using hn
  have hmain : cmGet hash (runOps hash (cmNew StoredObject numShards) ops) k
      = specStoredFrom k none ops := by
    rw [cmGet_runOps hash ops _ hlen k, hfresh k]
  refine ⟨?_, ?_, ?_, ?_⟩
  · rw [imRetrieve, hmain]; rfl
  · intro o t
    rw [show (imStore hash (runOps hash (cmNew StoredObject numShards) ops) k o t).1
      = ((cmGet hash (runOps hash (cmNew StoredObject numShards) ops) k).map
          (·.object)).getD nullObj from rfl, hmain]
    rfl
  · rw [show (imRemove hash (runOps hash (cmNew StoredObject numShards) ops) k).1
      = ((cmGet hash (runOps hash (cmNew StoredObject numShards) ops) k).map
          (·.object)).getD nullObj from rfl, hmain]
    rfl
  · intro hnone
    rw [imUpdatedTime, hmain]
    rw [specLast] at hnone
    cases h : specStoredFrom k none ops with
    | none => rfl
    | some s => rw [h] at hnone; simp at hnone

theorem inMemoryStore_sequence_semantics_witness :
    0 < 4 ∧
    (imRetrieve (fun k => k.length) (runOps (fun k => k.length)
        (cmNew StoredObject 4) [.store [9] intOneObj 3, .remove [9]]) [9]
      = (specLast [.store [9] intOneObj 3, .remove [9]] [9]).getD nullObj
    ∧ (∀ o t, (imStore (fun k => k.length) (runOps (fun k => k.length)
        (cmNew StoredObject 4) [.store [9] intOneObj 3, .remove [9]]) [9] o t).1
      = (specLast [.store [9] intOneObj 3, .remove [9]] [9]).getD nullObj)
    ∧ (imRemove (fun k => k.length) (runOps (fun k => k.length)
        (cmNew StoredObject 4) [.store [9] intOneObj 3, .remove [9]]) [9]).1
      = (specLast [.store [9] intOneObj 3, .remove [9]] [9]).getD nullObj
    ∧ (specLast [.store [9] intOneObj 3, .remove [9]] [9] = none →
        imUpdatedTime (fun k => k.length) (runOps (fun k => k.length)
          (cmNew StoredObject 4) [.store [9] intOneObj 3, .remove [9]]) [9] = 0)) :=
  ⟨by decide,
    inMemoryStore_sequence_semantics (fun k => k.length) 4 (by decide)
      [.store [9] intOneObj 3, .remove [9]] [9]⟩

theorem aol_store_remove_error_path_witness :
    false = false ∧
    (aolStore (σ := Nat) (fun s _ _ => (nullObj, s + 1)) false 0 [107] nullObj
        = (none, 0, []) ∧
      aolRemove (σ := Nat) (fun s _ => (nullObj, s + 1)) false 0 [107]
        = (none, 0, [])) :=
  ⟨rfl, aol_store_remove_error_path (fun s _ _ => (nullObj, s + 1))
    (fun s _ => (nullObj, s + 1)) false 0 [107] nullObj rfl⟩

/-- `GetParams` (`server/src/lib.rs`): the optional link-resolution
parameter; its value is the 1-byte maximum resolution depth. -/
structure GetParams where
  linkResolution : Option Nat
  deriving DecidableEq, Repr

/-- `Command` (`server/src/lib.rs`). -/
inductive Command where
  | get (key : Bytes) (params : GetParams)
  | set (key : Bytes) (obj : Obj)
  | delete (key : Bytes)
  | close
  deriving DecidableEq, Repr

/-- The `CommandError` variants of `server/src/lib.rs` that a parse can
produce (`Network` only arises from socket reads, which are outside this
model). -/
inductive CmdErr where
  | object
  | invalid (t : Nat)
  | param
  deriving DecidableEq, Repr

/-- Parse outcome: a command, a `CommandError`, or a panic escaping from
`Key::new`. -/
inductive CmdOut where
  | ok (c : Command)
  | error (e : CmdErr)
  | panicked
  deriving DecidableEq, Repr

/-- The parameter loop of `GetParams::from_bytes`: `num_params`
iterations; each reads a param-type byte; only type 1 (LinkResolution) is
defined, whose `LinkResolution::from_bytes` reads one value byte.  `none`
models `Err(CommandError::Param)`.  Leftover bytes after the declared
count are ignored, as in the source. -/
def getParamsGo : Nat → Bytes → Option Nat → Option GetParams
  | 0, _, acc => some ⟨acc⟩
  | n + 1, data, _acc =>
    match data with
    | [] => none
    | ptype :: rest =>
      if ptype = 1 then
        match rest with
        | [] => none
        | v :: r => getParamsGo n r (some v)
      else none

/-- `GetParams::from_bytes`: empty data means default params; otherwise
the first byte is the parameter count. -/
def getParamsFromBytes (data : Bytes) : Option GetParams :=
  match data with
  | [] => some ⟨none⟩
  | numParams :: rest => getParamsGo numParams rest none

/-- `Command::new` (`server/src/lib.rs` lines 203-236): dispatch on the
command type byte — GET=0, SET=1, DELETE=2, CLOSE=255, anything else
`Err(CommandError::Invalid)`; each body first decodes the key with
`Key::new` (whose `ObjectError` becomes `CommandError::Object` via `?`). -/
def commandNew (t : Nat) (data : Bytes) : CmdOut :=
  if t = 0 then
    match keyNew data with
    | .panicked => .panicked
    | .error => .error .object
    | .ok k rest =>
      match getParamsFromBytes rest with
      | none => .error .param
      | some p => .ok (.get k p)
  else if t = 1 then
    match keyNew data with
    | .panicked => .panicked
    | .error => .error .object
    | .ok k rest =>
      match objDeserialize rest with
      | none => .error .object
      | some (o, _) => .ok (.set k o)
  else if t = 2 then
    match keyNew data with
    | .panicked => .panicked
    | .error => .error .object
    | .ok k _ => .ok (.delete k)
  else if t = 255 then .ok .close
  else .error (.invalid t)

/-- `Connection::recieve` (`server/src/lib.rs` lines 252-272) after the
framed payload has been read in full: an empty payload is rejected with
`CommandError::Invalid(0)` before the op byte is indexed; otherwise the
command type is the first payload byte and the rest is the body. -/
def recieve (payload : Bytes) : CmdOut :=
  match payload with
  | [] => .error (.invalid 0)
  | t :: data => commandNew t data

/-- Claim C10: a frame declaring payload length 0 yields an empty payload
buffer, which `recieve` rejects as `CommandError::Invalid` instead of
panicking on the missing op byte; and every successfully parsed command
comes from a payload of at least one byte whose first byte is the command
type passed to `Command::new`. -/
theorem connection_recieve_empty_payload :
    (∀ payload : Bytes, payload.length = 0 → recieve payload = .error (.invalid 0)) ∧
    (∀ (payload : Bytes) (c : Command), recieve payload = .ok c →
      0 < payload.length ∧
      ∃ t data, payload = t :: data ∧ commandNew t data = .ok c) := by
  constructor
  · intro p hp
    rw [List.length_eq_zero] at hp
    subst hp
    rfl
  · intro p c h
    cases p with
    | nil => exact absurd h (by simp [recieve])
    | cons t data => exact ⟨by simp, t, data, rfl, h⟩

theorem connection_recieve_empty_payload_witness :
    recieve [] = .error (.invalid 0) ∧
    (0 < ([255] : Bytes).length ∧
      ∃ t data, ([255] : Bytes) = t :: data ∧ commandNew t data = .ok .close) :=
  ⟨connection_recieve_empty_payload.1 [] rfl,
    connection_recieve_empty_payload.2 [255] .close rfl⟩

end Crab
